import Mathlib

/-!
Verification of mixminion/Queue.py (repository tidatida/mixminion).

The queue is a directory of files whose names encode the message state:
`inp_HANDLE` (being written), `msg_HANDLE` (complete), `rmv_HANDLE`
(awaiting secure erasure), plus at most one `.cleaning` sentinel file.
We embed the directory as a list of entries (parsed filename, mtime,
content) together with the cached in-memory counter `n_entries`, and
translate each method of Queue.py into a Lean function on that state.

External collaborators that are part of the mixminion repository but not
of the provided sources (mixminion.Crypto, mixminion.Common.secureDelete)
are modelled from the specification, as flagged at their definitions.
-/

namespace MixminionQueue

/-- A message handle (the 12-character random token after the tag prefix). -/
abbrev Handle := String

/-- The three filename state tags of Queue.py: `inp_`, `msg_`, `rmv_`. -/
inductive Tag
  | inp
  | msg
  | rmv
deriving DecidableEq

/-- A filename of the queue directory, parsed.  `tagged t h` stands for the
name `<tag>_<h>`; `cleaning` is the `.cleaning` sentinel; `other s` covers
any remaining name, restricted to names that do not begin with one of the
three tag prefixes and are not `.cleaning` (so the `startswith` filters of
the source translate to matches on the constructor). -/
inductive FName
  | tagged (t : Tag) (h : Handle)
  | cleaning
  | other (s : String)
deriving DecidableEq

/-- One directory entry: its parsed filename, its modification time in
seconds (`os.stat`, `ST_MTIME`) and its byte content. -/
structure Entry where
  name : FName
  mtime : Nat
  content : String
deriving DecidableEq

/-- The state of one Queue object: the backing directory and the cached
message count `n_entries` (`-1` means not yet counted, Queue.py:96). -/
structure QueueState where
  files : List Entry
  n_entries : Int
deriving DecidableEq

/-- Python exceptions raised by the translated code: `osError code` for
filesystem errors (EEXIST from O_EXCL creation, ENOENT from a rename whose
source is missing, EIO for an injected environmental failure), and
`nameError id` for evaluating an unbound name `id`. -/
inductive PyErr
  | osError (code : String)
  | nameError (id : String)
deriving DecidableEq

/-- The filenames of a directory listing, in listing order. -/
def namesOf (fs : List Entry) : List FName := fs.map (·.name)

/-- Does a file of the given name exist in the directory? -/
def hasName (fs : List Entry) (n : FName) : Bool := fs.any (·.name == n)

/-- `os.stat` on one directory entry: the entry of the given name, if any. -/
def findName (fs : List Entry) (n : FName) : Option Entry :=
  fs.find? (·.name == n)

/-- `fn.startswith("msg_")` on a parsed filename. -/
def isMsg : FName → Bool
  | .tagged .msg _ => true
  | _ => false

/-- `fn[4:]`: strip the 4-character tag prefix, leaving the handle.  Only
applied to `tagged` names by the source (its callers filter on a tag
prefix first); the remaining cases are unreachable there. -/
def handleOf : FName → Handle
  | .tagged _ h => h
  | .cleaning => ""
  | .other s => s.drop 4

/-- The number of `msg_*` files in a directory listing. -/
def msgCount (fs : List Entry) : Nat := fs.countP (fun e => isMsg e.name)

/-- Rename substitution on one entry: entries named `a` become named `b`. -/
def substE (a b : FName) (e : Entry) : Entry :=
  if e.name == a then { e with name := b } else e

/-- Rename substitution on one filename. -/
def substN (a b : FName) (x : FName) : FName := if x == a then b else x

/-- `os.rename(a, b)` on the directory listing, given that `a` exists: any
existing file named `b` is replaced (POSIX rename semantics), then `a` is
renamed to `b`.  The mtime is preserved by a rename. -/
def renameFile (fs : List Entry) (a b : FName) : List Entry :=
  (fs.filter (fun e => e.name != b)).map (substE a b)

/-- `open(path, "w")` followed by a write and close: creates or truncates
the file of that name, with the current time as its mtime. -/
def writeNew (fs : List Entry) (n : FName) (now : Nat) (c : String) : List Entry :=
  ⟨n, now, c⟩ :: fs.filter (fun e => e.name != n)

/-- `f.write(contents)` on an open file of the given name: appends to its
content and refreshes its mtime. -/
def writeFile (fs : List Entry) (n : FName) (now : Nat) (c : String) : List Entry :=
  fs.map (fun e => if e.name == n then { e with mtime := now, content := e.content ++ c } else e)

/-- INPUT_TIMEOUT (Queue.py:28): `inp_*` files older than this are trash. -/
def INPUT_TIMEOUT : Nat := 600

/-- CLEAN_TIMEOUT (Queue.py:32): age after which a `.cleaning` sentinel is
considered stale. -/
def CLEAN_TIMEOUT : Nat := 60

/-- Queue.__changeState (Queue.py:256-266).  `os.rename` of
`<s1>_<handle>` to `<s2>_<handle>`, then the `n_entries` bookkeeping,
which runs only after the rename has succeeded.  `fsOK = false` injects an
environmental filesystem failure (permission denied, disk full) into the
rename; the rename also fails with ENOENT when the source name is absent.
On either failure the exception propagates and the state is returned as it
was. -/
def changeState (fsOK : Bool) (st : QueueState) (h : Handle) (s1 s2 : Tag) :
    Except PyErr Unit × QueueState :=
  if fsOK && hasName st.files (.tagged s1 h) then
    let fs := renameFile st.files (.tagged s1 h) (.tagged s2 h)
    let n := st.n_entries
    let n' := if n < 0 then n
      else if s1 == Tag.msg && s2 != Tag.msg then n - 1
      else if s1 != Tag.msg && s2 == Tag.msg then n + 1
      else n
    (.ok (), { files := fs, n_entries := n' })
  else
    (.error (.osError (if fsOK then "ENOENT" else "EIO")), st)

/-- Queue.count (Queue.py:114-124): return the cached `n_entries` unless a
recount is forced or the cache is uninitialised, in which case the
directory is scanned for `msg_*` names and the cache refreshed. -/
def count (st : QueueState) (recount : Bool) : Int × QueueState :=
  if 0 ≤ st.n_entries ∧ ¬ recount then (st.n_entries, st)
  else ((msgCount st.files : Int), { st with n_entries := (msgCount st.files : Int) })

/-- Queue.openNewMessage (Queue.py:199-206): `os.open` of `inp_<h>` with
`O_WRONLY|O_CREAT|O_EXCL`, which fails with EEXIST when the name is
already taken and otherwise creates the empty file.  `h` is the fresh
handle that Queue.__newHandle drew from the external rng. -/
def openNewMessage (st : QueueState) (h : Handle) (now : Nat) :
    Except PyErr Handle × QueueState :=
  if hasName st.files (.tagged .inp h) then
    (.error (.osError "EEXIST"), st)
  else
    (.ok h, { st with files := ⟨.tagged .inp h, now, ""⟩ :: st.files })

/-- Queue.finishMessage (Queue.py:208-212): close and rename
`inp_<h>` to `msg_<h>`. -/
def finishMessage (fsOK : Bool) (st : QueueState) (h : Handle) :
    Except PyErr Unit × QueueState :=
  changeState fsOK st h .inp .msg

/-- Queue.abortMessage (Queue.py:214-218): close and rename
`inp_<h>` to `rmv_<h>`. -/
def abortMessage (fsOK : Bool) (st : QueueState) (h : Handle) :
    Except PyErr Unit × QueueState :=
  changeState fsOK st h .inp .rmv

/-- Queue.removeMessage (Queue.py:155-157): rename `msg_<h>` to
`rmv_<h>`. -/
def removeMessage (fsOK : Bool) (st : QueueState) (h : Handle) :
    Except PyErr Unit × QueueState :=
  changeState fsOK st h .msg .rmv

/-- Queue.queueMessage (Queue.py:98-104): openNewMessage, write the
contents, finishMessage, return the handle. -/
def queueMessage (st : QueueState) (h : Handle) (now : Nat) (contents : String) :
    Except PyErr Handle × QueueState :=
  match openNewMessage st h now with
  | (.error e, st1) => (.error e, st1)
  | (.ok h1, st1) =>
    let st2 : QueueState := { st1 with files := writeFile st1.files (.tagged .inp h1) now contents }
    match finishMessage true st2 h1 with
    | (.error e, st3) => (.error e, st3)
    | (.ok _, st3) => (.ok h1, st3)

/-- Queue.queueObject (Queue.py:106-112).  The body runs
`cPickle.dump(contents, f, 1)`, but the parameter of the method is named
`object` and no global `contents` exists in the module, so after
openNewMessage has created the `inp_` file the dump statement raises
`NameError` on the unbound name `contents`; the exception propagates with
the fresh `inp_` file left behind. -/
def queueObject (st : QueueState) (h : Handle) (now : Nat) :
    Except PyErr Handle × QueueState :=
  match openNewMessage st h now with
  | (.error e, st1) => (.error e, st1)
  | (.ok _, st1) => (.error (.nameError "contents"), st1)

/-- Queue.getAllMessages (Queue.py:150-153): the handles of all `msg_*`
entries, in directory listing order. -/
def getAllMessages (fs : List Entry) : List Handle :=
  (fs.filter (fun e => isMsg e.name)).map (fun e => handleOf e.name)

/-- AESCounterPRNG.getInt.  Modelled from the spec: mixminion.Crypto is
part of the repository but not of the provided sources; section 6 of the
specification fixes the interface `getInt(bound)` as a uniform integer in
`[0, bound)`.  The prng is modelled by the stream of its draws, and
`x % b` realises exactly the values of `[0, b)` as `x` ranges over the
naturals (`b` is positive at every reachable call site). -/
def getInt (x b : Nat) : Nat := x % b

/-- The element exchange of Queue.pickRandom (Queue.py:144-146):
`v = messages[swap]; messages[swap] = messages[i]; messages[i] = v`. -/
def swapElems (l : List FName) (i j : Nat) : List FName :=
  (l.set i (l.getD j (FName.other ""))).set j (l.getD i (FName.other ""))

/-- The selection loop of Queue.pickRandom (Queue.py:142-146):
`for i in range(count-1): swap = i + self.rng.getInt(n-i-1)` followed by
the exchange of positions `i` and `swap`.  `rand` is the stream of prng
draws, `n` is `len(messages)`, `steps` the remaining iterations. -/
def shuffleIter (rand : List Nat) (n : Nat) : Nat → Nat → List FName → List FName
  | _, 0, msgs => msgs
  | i, steps + 1, msgs =>
      let swap := i + getInt (rand.getD i 0) (n - i - 1)
      shuffleIter rand n (i + 1) steps (swapElems msgs i swap)

/-- The Python slice `l[:c]` for a possibly negative `c`: a negative stop
counts from the end, clamped at zero. -/
def pyTake (l : List FName) (c : Int) : List FName :=
  if 0 ≤ c then l.take c.toNat else l.take (l.length - c.natAbs)

/-- Queue.pickRandom (Queue.py:126-148): enumerate the `msg_*` names,
run the selection loop, slice to the requested count and strip the tag
prefixes.  `count? = none` models the omitted `count` argument. -/
def pickRandom (fs : List Entry) (rand : List Nat) (count? : Option Int) : List Handle :=
  let messages := (fs.filter (fun e => isMsg e.name)).map (·.name)
  let n := messages.length
  let cnt : Int := match count? with
    | none => (n : Int)
    | some c => min c (n : Int)
  let shuffled := shuffleIter rand n 0 (cnt - 1).toNat messages
  (pyTake shuffled cnt).map handleOf

/-- The directory scan of Queue.cleanQueue (Queue.py:243-253), iterating
over the `os.listdir` snapshot taken after the sentinel was written, while
renames act on the live directory.  Pre-existing `rmv_*` names are
appended to the batch; an `inp_*` name older than the allowed time is
renamed to `rmv_*` by __changeState and then the pre-rename `inp_*` path
(`os.path.join(self.dir, m)` at Queue.py:252, with `m` still the old
name) is appended to the batch.  The `os.stat(m)` of Queue.py:249 resolves
`m` against the process working directory; we model the most favorable
case, working directory equal to the queue directory, where the stat
returns the mtime of the snapshot entry (renames preserve mtimes, so the
snapshot mtime is the live mtime). -/
def cleanLoop (allowedTime : Nat) :
    List Entry → List FName → QueueState → Except PyErr (List FName) × QueueState
  | [], rmv, st => (.ok rmv, st)
  | e :: rest, rmv, st =>
    match e.name with
    | .tagged .rmv h => cleanLoop allowedTime rest (rmv ++ [.tagged .rmv h]) st
    | .tagged .inp h =>
        if e.mtime < allowedTime then
          match changeState true st h .inp .rmv with
          | (.error err, st') => (.error err, st')
          | (.ok _, st') => cleanLoop allowedTime rest (rmv ++ [.tagged .inp h]) st'
        else cleanLoop allowedTime rest rmv st
    | _ => cleanLoop allowedTime rest rmv st

/-- Queue.cleanQueue (Queue.py:220-254).  Returns the Python return value
(1 for a clean already in progress, 0 for a performed pass) paired with
the path batch handed to _secureDelete_bg.  Source behaviour kept as
written: in the sentinel check (Queue.py:228-234) the staleness test
`if now - s[stat.ST_MTIME] > CLEAN_TIMEOUT: cleaning = 0` is immediately
followed by the unconditional statement `cleaning = 1`, so its result is
dead and any existing sentinel, stale or not, yields the early return.
The subtraction `int(time.time()) - INPUT_TIMEOUT` agrees with truncated
Nat subtraction because mtimes are never negative. -/
def cleanQueue (st : QueueState) (now : Nat) :
    Except PyErr (Nat × List FName) × QueueState :=
  let cleaning :=
    match findName st.files .cleaning with
    | some e =>
        let _stale := decide (CLEAN_TIMEOUT < now - e.mtime)
        true
    | none => false
  if cleaning then (.ok (1, []), st)
  else
    let files1 := writeNew st.files .cleaning now (toString now)
    match cleanLoop (now - INPUT_TIMEOUT) files1 [] { st with files := files1 } with
    | (.error e, st') => (.error e, st')
    | (.ok rmv, st') => (.ok (0, rmv), st')

/-- _secureDelete_bg (Queue.py:413-427), observed after the forked child
has run to completion: mixminion.Common.secureDelete (modelled from the
spec: a secure overwrite-and-unlink of each listed path, where a missing
path is a no-op) unlinks every listed path that exists, and then the
`.cleaning` sentinel is unlinked. -/
def secureDelete_bg (st : QueueState) (batch : List FName) : QueueState :=
  { st with files := st.files.filter (fun e => !(batch.contains e.name) && e.name != FName.cleaning) }

/-- DeliveryQueue.queueMessage (Queue.py:317-330).  It delegates to
Queue.queueObject, which raises `NameError` on `contents` on every call;
were that call ever to return, the following lines would still fault, on
the unbound local `handle` (Queue.py:327 and 330) in the `retryAt == 0`
branch and on the unimported module `bisect` (Queue.py:329) otherwise. -/
def DeliveryQueue.queueMessage (st : QueueState) (h : Handle) (now : Nat)
    (addr msg : String) (retry retryAt : Int) : Except PyErr Handle × QueueState :=
  match queueObject st h now with
  | (.error e, st1) => (.error e, st1)
  | (.ok _, st1) =>
      if retryAt == 0 then (.error (.nameError "handle"), st1)
      else (.error (.nameError "bisect"), st1)

/-- MixQueue.MIN_POOL_SIZE (Queue.py:401). -/
def MIN_POOL_SIZE : Int := 5

/-- Round `a / 2 ^ s` to the nearest integer, ties to even. -/
def rne (a s : Nat) : Nat :=
  if s = 0 then a
  else
    let q := a / 2 ^ s
    let r := a % 2 ^ s
    let half := 2 ^ (s - 1)
    if r < half then q
    else if half < r then q + 1
    else if q % 2 = 0 then q else q + 1

/-- Fuel-driven floor of the base-2 logarithm (structural recursion, so
that kernel evaluation of concrete values terminates quickly). -/
def lgAux : Nat → Nat → Nat
  | 0, _ => 0
  | fuel + 1, n => if n ≤ 1 then 0 else lgAux fuel (n / 2) + 1

/-- Floor of the base-2 logarithm. -/
def lg (n : Nat) : Nat := lgAux n n

/-- The nearest IEEE-754 double to a natural number (53-bit significand,
round to nearest, ties to even), as a natural.  Exact for `n < 2 ^ 53`. -/
def flNat (n : Nat) : Nat :=
  let e := lg n
  if e ≤ 52 then n else rne n (e - 52) * 2 ^ (e - 52)

/-- Python `int(n * 0.3)` for a non-negative int `n`: the literal 0.3 is
the double `5404319552844595 * 2 ^ (-54 : Int)`, the int `n` is converted
to the nearest double, the product is rounded to the nearest double and
`int` truncates toward zero.  Computed exactly: the scaled significand
`M = 5404319552844595 * flNat n` has at least 53 bits for `n > 0`, is
rounded to 53 bits and the result is floored. -/
def floorMul03 (n : Nat) : Nat :=
  if n = 0 then 0
  else
    let M := 5404319552844595 * flNat n
    let e := lg M
    let k := rne M (e - 52)
    if 106 ≤ e then k * 2 ^ (e - 106) else k / 2 ^ (106 - e)

/-- MixQueue.pickMessages (Queue.py:406-411):
`n = self.count()`, `nTransmit = min(n - MIN_POOL_SIZE, int(n * 0.3))`,
`return self.pickRandom(nTransmit)`.  No clamping of a negative
`nTransmit` appears in the source.  `count` always returns a non-negative
value, so the `toNat` conversion into the float model is exact. -/
def pickMessages (st : QueueState) (rand : List Nat) : List Handle × QueueState :=
  let (n, st') := count st false
  let nTransmit : Int := min (n - MIN_POOL_SIZE) ((floorMul03 n.toNat : Int))
  (pickRandom st'.files rand (some nTransmit), st')

/-- The operations of the count-consistency claim: count, create, the
open/write/finish composition, finish, abort and remove.  The handle
arguments stand for the draws of Queue.__newHandle. -/
inductive QOp
  | countOp (recount : Bool)
  | openNew (h : Handle) (now : Nat)
  | queue (h : Handle) (now : Nat) (contents : String)
  | finish (h : Handle)
  | abort (h : Handle)
  | remove (h : Handle)

/-- Run one operation, keeping the state it leaves behind (on an exception
the state at the raise point, which for these operations is the entry
state). -/
def runOp (st : QueueState) : QOp → QueueState
  | .countOp r => (count st r).2
  | .openNew h now => (openNewMessage st h now).2
  | .queue h now c => (queueMessage st h now c).2
  | .finish h => (finishMessage true st h).2
  | .abort h => (abortMessage true st h).2
  | .remove h => (removeMessage true st h).2

/-- Run a sequence of operations. -/
def runOps (st : QueueState) : List QOp → QueueState
  | [] => st
  | op :: ops => runOps (runOp st op) ops

/-- No file of any state tag carries the given handle: the freshness that
Queue.__newHandle delivers with negligible failure probability
(Queue.py:45-55 documents that collisions are not defended against). -/
def handleFree (fs : List Entry) (h : Handle) : Bool :=
  fs.all (fun e => e.name != FName.tagged .inp h &&
                   e.name != FName.tagged .msg h &&
                   e.name != FName.tagged .rmv h)

/-- The freshness discipline of an operation sequence: every handle passed
to a create operation is free in the state the create runs in. -/
def okOps (st : QueueState) : List QOp → Bool
  | [] => true
  | op :: ops =>
    (match op with
     | .openNew h _ => handleFree st.files h
     | .queue h _ _ => handleFree st.files h
     | _ => true) && okOps (runOp st op) ops

/-- A handle belongs to at most one state tag (the data-model invariant
the state machine maintains through atomic renames). -/
def HandleUnique (fs : List Entry) : Prop :=
  ∀ t t' h, FName.tagged t h ∈ namesOf fs → FName.tagged t' h ∈ namesOf fs → t = t'

/-- The standing invariant of a Queue: distinct filenames, at most one
state tag per handle, and a cached count that matches the directory
whenever it is non-negative. -/
def Inv (st : QueueState) : Prop :=
  (namesOf st.files).Nodup ∧ HandleUnique st.files ∧
    (0 ≤ st.n_entries → st.n_entries = (msgCount st.files : Int))

theorem hasName_iff {fs : List Entry} {n : FName} :
    hasName fs n = true ↔ n ∈ namesOf fs := by
  simp [hasName, namesOf, List.any_eq_true, List.mem_map]

theorem filter_ne_eq_self {fs : List Entry} {b : FName} (hb : b ∉ namesOf fs) :
    fs.filter (fun e => e.name != b) = fs := by
  apply List.filter_eq_self.mpr
  intro e he
  rw [bne_iff_ne]
  intro hEq
  exact hb (hEq ▸ List.mem_map_of_mem _ he)

theorem map_substE_id : ∀ {fs : List Entry} {a b : FName}, a ∉ namesOf fs →
    fs.map (substE a b) = fs := by
  intro fs a b ha
  induction fs with
  | nil => rfl
  | cons e rest ih =>
    have h1 : ¬ (e.name = a) := by
      intro hEq
      exact ha (by simp [namesOf, hEq])
    have h2 : a ∉ namesOf rest := by
      intro hm
      exact ha (by simp [namesOf] at hm ⊢; exact Or.inr hm)
    simp [substE, h1, ih h2]

theorem substE_name (a b : FName) (e : Entry) :
    (substE a b e).name = substN a b e.name := by
  by_cases h : (e.name == a) = true <;> simp [substE, substN, h]

theorem namesOf_map_substE (fs : List Entry) (a b : FName) :
    namesOf (fs.map (substE a b)) = (namesOf fs).map (substN a b) := by
  induction fs with
  | nil => rfl
  | cons e rest ih =>
      simp only [namesOf, List.map_cons] at ih ⊢
      rw [substE_name, ih]

theorem msgCount_map_substE :
    ∀ {fs : List Entry} {a : FName} (b : FName), (namesOf fs).Nodup → a ∈ namesOf fs →
    msgCount (fs.map (substE a b)) + (if isMsg a then 1 else 0)
      = msgCount fs + (if isMsg b then 1 else 0) := by
  intro fs a b hnd ha
  induction fs with
  | nil => simp [namesOf] at ha
  | cons e rest ih =>
    have hnd' : (namesOf rest).Nodup := by
      simp [namesOf, List.nodup_cons] at hnd
      exact hnd.2
    by_cases hEq : e.name = a
    · have hnotin : a ∉ namesOf rest := by
        intro hmem
        obtain ⟨x, hx, hxn⟩ := List.mem_map.mp hmem
        simp [namesOf, List.nodup_cons] at hnd
        exact hnd.1 x hx (by rw [hxn, hEq])
      have hrest : rest.map (substE a b) = rest := map_substE_id hnotin
      simp only [List.map_cons, msgCount, List.countP_cons, hrest, substE, hEq,
        beq_self_eq_true, if_true]
      simp only [msgCount] at *
      generalize (if isMsg a then 1 else 0 : Nat) = x
      generalize (if isMsg b then 1 else 0 : Nat) = y
      omega
    · have ha' : a ∈ namesOf rest := by
        simp [namesOf] at ha ⊢
        rcases ha with h | h
        · exact absurd h.symm hEq
        · exact h
      have hstep := ih hnd' ha'
      have hsE : substE a b e = e := by simp [substE, hEq]
      simp only [List.map_cons, msgCount, List.countP_cons, hsE] at hstep ⊢
      generalize (if isMsg e.name then 1 else 0 : Nat) = z at *
      omega

theorem nodup_map_substN {ns : List FName} {a b : FName}
    (hnd : ns.Nodup) (hb : b ∉ ns) : (ns.map (substN a b)).Nodup := by
  apply List.Nodup.map_on ?_ hnd
  intro x hx y hy hxy
  by_cases hxa : x = a <;> by_cases hya : y = a
  · rw [hxa, hya]
  · exfalso
    simp [substN, hxa, hya] at hxy
    exact hb (hxy ▸ hy)
  · exfalso
    simp [substN, hxa, hya] at hxy
    exact hb (hxy ▸ hx)
  · simpa [substN, hxa, hya] using hxy

theorem handleUnique_map_substE {fs : List Entry} {s1 s2 : Tag} {h0 : Handle}
    (hu : HandleUnique fs) (ha : FName.tagged s1 h0 ∈ namesOf fs)
    (hb : FName.tagged s2 h0 ∉ namesOf fs) :
    HandleUnique (fs.map (substE (FName.tagged s1 h0) (FName.tagged s2 h0))) := by
  intro t t' h ht ht'
  rw [namesOf_map_substE] at ht ht'
  obtain ⟨x, hx, hxeq⟩ := List.mem_map.mp ht
  obtain ⟨y, hy, hyeq⟩ := List.mem_map.mp ht'
  by_cases hxa : x = FName.tagged s1 h0 <;> by_cases hya : y = FName.tagged s1 h0
  · simp [substN, hxa] at hxeq
    simp [substN, hya] at hyeq
    rw [← hxeq.1, ← hyeq.1]
  · simp [substN, hxa] at hxeq
    simp [substN, hya] at hyeq
    exfalso
    obtain ⟨hs2, hh0⟩ := hxeq
    have hy' : FName.tagged t' h0 ∈ namesOf fs := by
      rw [hh0]
      rw [hyeq] at hy
      exact hy
    have hts : s1 = t' := hu s1 t' h0 ha hy'
    apply hya
    rw [hyeq, ← hts, ← hh0]
  · simp [substN, hxa] at hxeq
    simp [substN, hya] at hyeq
    exfalso
    obtain ⟨hs2, hh0⟩ := hyeq
    have hx' : FName.tagged t h0 ∈ namesOf fs := by
      rw [hh0]
      rw [hxeq] at hx
      exact hx
    have hts : s1 = t := hu s1 t h0 ha hx'
    apply hxa
    rw [hxeq, ← hts, ← hh0]
  · simp [substN, hxa, hya] at hxeq hyeq
    exact hu t t' h (hxeq ▸ hx) (hyeq ▸ hy)

theorem changeState_inv {fsOK : Bool} {st : QueueState} {h0 : Handle} {s1 s2 : Tag}
    (hne : s1 ≠ s2) (hInv : Inv st) : Inv (changeState fsOK st h0 s1 s2).2 := by
  obtain ⟨hnd, hu, hcnt⟩ := hInv
  by_cases hc : (fsOK && hasName st.files (.tagged s1 h0)) = true
  · have haIn : FName.tagged s1 h0 ∈ namesOf st.files :=
      hasName_iff.mp (Bool.and_eq_true .. |>.mp hc).2
    have hbNot : FName.tagged s2 h0 ∉ namesOf st.files := by
      intro hbIn
      exact hne (hu s1 s2 h0 haIn hbIn)
    have hre : renameFile st.files (.tagged s1 h0) (.tagged s2 h0)
        = st.files.map (substE (.tagged s1 h0) (.tagged s2 h0)) := by
      unfold renameFile
      rw [filter_ne_eq_self hbNot]
    have hstate : (changeState fsOK st h0 s1 s2).2 =
        { files := st.files.map (substE (.tagged s1 h0) (.tagged s2 h0)),
          n_entries := if st.n_entries < 0 then st.n_entries
            else if s1 == Tag.msg && s2 != Tag.msg then st.n_entries - 1
            else if s1 != Tag.msg && s2 == Tag.msg then st.n_entries + 1
            else st.n_entries } := by
      simp only [changeState, hc, if_true, hre]
    rw [hstate]
    refine ⟨?_, ?_, ?_⟩
    · rw [namesOf_map_substE]
      exact nodup_map_substN hnd hbNot
    · exact handleUnique_map_substE hu haIn hbNot
    · intro hge
      by_cases hneg : st.n_entries < 0
      · simp only [hneg, if_true] at hge ⊢
        omega
      · have hbase := hcnt (by omega)
        have hmc := @msgCount_map_substE st.files (FName.tagged s1 h0)
          (FName.tagged s2 h0) hnd haIn
        simp only [hneg, if_false]
        cases s1 <;> cases s2 <;> simp [isMsg] at hmc ⊢ <;> omega
  · simp only [changeState, hc, if_false, Bool.false_eq_true]
    exact ⟨hnd, hu, hcnt⟩

theorem handleFree_not_mem {fs : List Entry} {h : Handle}
    (hf : handleFree fs h = true) : ∀ t, FName.tagged t h ∉ namesOf fs := by
  intro t hmem
  obtain ⟨e, he, hname⟩ := List.mem_map.mp hmem
  have hall := List.all_eq_true.mp hf e he
  rw [hname] at hall
  cases t <;> simp at hall

theorem openNewMessage_inv {st : QueueState} {h : Handle} {now : Nat}
    (hInv : Inv st) (hfree : handleFree st.files h = true) :
    Inv (openNewMessage st h now).2 := by
  obtain ⟨hnd, hu, hcnt⟩ := hInv
  have hno : hasName st.files (.tagged .inp h) = false := by
    rw [Bool.eq_false_iff]
    intro htrue
    exact handleFree_not_mem hfree .inp (hasName_iff.mp htrue)
  have hstate : (openNewMessage st h now).2 =
      { st with files := ⟨.tagged .inp h, now, ""⟩ :: st.files } := by
    simp [openNewMessage, hno]
  rw [hstate]
  refine ⟨?_, ?_, ?_⟩
  · rw [show namesOf (⟨FName.tagged .inp h, now, ""⟩ :: st.files)
        = FName.tagged .inp h :: namesOf st.files from rfl, List.nodup_cons]
    exact ⟨handleFree_not_mem hfree .inp, hnd⟩
  · intro t t' h1 ht ht'
    rw [show namesOf (⟨FName.tagged .inp h, now, ""⟩ :: st.files)
        = FName.tagged .inp h :: namesOf st.files from rfl, List.mem_cons] at ht ht'
    rcases ht with ht | ht <;> rcases ht' with ht' | ht'
    · rw [FName.tagged.injEq] at ht ht'
      rw [ht.1, ht'.1]
    · exfalso
      rw [FName.tagged.injEq] at ht
      exact handleFree_not_mem hfree t' (ht.2 ▸ ht')
    · exfalso
      rw [FName.tagged.injEq] at ht'
      exact handleFree_not_mem hfree t (ht'.2 ▸ ht)
    · exact hu t t' h1 ht ht'
  · intro hge
    have : msgCount (⟨FName.tagged .inp h, now, ""⟩ :: st.files) = msgCount st.files := by
      simp [msgCount, List.countP_cons, isMsg]
    rw [this]
    exact hcnt hge

theorem namesOf_writeFile (fs : List Entry) (n : FName) (now : Nat) (c : String) :
    namesOf (writeFile fs n now c) = namesOf fs := by
  induction fs with
  | nil => rfl
  | cons e rest ih =>
      simp only [writeFile, namesOf, List.map_cons] at ih ⊢
      rw [ih]
      congr 1
      by_cases hh : (e.name == n) = true <;> simp [hh]

theorem msgCount_eq_countP_names (fs : List Entry) :
    msgCount fs = (namesOf fs).countP isMsg := by
  unfold msgCount namesOf
  rw [List.countP_map]
  rfl

theorem writeFile_inv {st : QueueState} {n : FName} {now : Nat} {c : String}
    (hInv : Inv st) :
    Inv ⟨writeFile st.files n now c, st.n_entries⟩ := by
  obtain ⟨hnd, hu, hcnt⟩ := hInv
  have hnames := namesOf_writeFile st.files n now c
  refine ⟨?_, ?_, ?_⟩
  · rw [show namesOf (QueueState.files ⟨writeFile st.files n now c, st.n_entries⟩)
        = namesOf (writeFile st.files n now c) from rfl, hnames]
    exact hnd
  · intro t t' h1 ht ht'
    rw [show namesOf (QueueState.files ⟨writeFile st.files n now c, st.n_entries⟩)
        = namesOf (writeFile st.files n now c) from rfl, hnames] at ht ht'
    exact hu t t' h1 ht ht'
  · intro hge
    rw [show msgCount (QueueState.files ⟨writeFile st.files n now c, st.n_entries⟩)
        = msgCount (writeFile st.files n now c) from rfl,
      msgCount_eq_countP_names, hnames, ← msgCount_eq_countP_names]
    exact hcnt hge

theorem queueMessage_inv {st : QueueState} {h : Handle} {now : Nat} {c : String}
    (hInv : Inv st) (hfree : handleFree st.files h = true) :
    Inv (queueMessage st h now c).2 := by
  have hno : hasName st.files (.tagged .inp h) = false := by
    rw [Bool.eq_false_iff]
    intro htrue
    exact handleFree_not_mem hfree .inp (hasName_iff.mp htrue)
  have hopen : openNewMessage st h now =
      (.ok h, { st with files := ⟨.tagged .inp h, now, ""⟩ :: st.files }) := by
    simp [openNewMessage, hno]
  have hInv1 : Inv { st with files := ⟨FName.tagged .inp h, now, ""⟩ :: st.files } := by
    have := @openNewMessage_inv st h now hInv hfree
    rwa [hopen] at this
  have hInv2 : Inv ⟨writeFile (⟨FName.tagged .inp h, now, ""⟩ :: st.files)
      (.tagged .inp h) now c, st.n_entries⟩ :=
    @writeFile_inv { st with files := ⟨FName.tagged .inp h, now, ""⟩ :: st.files }
      (.tagged .inp h) now c hInv1
  have hInv3 : Inv (finishMessage true
      ⟨writeFile (⟨FName.tagged .inp h, now, ""⟩ :: st.files) (.tagged .inp h) now c,
       st.n_entries⟩ h).2 :=
    changeState_inv (by decide) hInv2
  unfold queueMessage
  rw [hopen]
  rcases hf : finishMessage true
      ⟨writeFile (⟨FName.tagged .inp h, now, ""⟩ :: st.files) (.tagged .inp h) now c,
       st.n_entries⟩ h with ⟨r, s3⟩
  rw [hf] at hInv3
  cases r <;> simpa [hf] using hInv3

theorem count_inv {st : QueueState} {r : Bool} (hInv : Inv st) : Inv (count st r).2 := by
  obtain ⟨hnd, hu, hcnt⟩ := hInv
  unfold count
  split
  · exact ⟨hnd, hu, hcnt⟩
  · exact ⟨hnd, hu, fun _ => rfl⟩

theorem runOp_inv {st : QueueState} {op : QOp} (hInv : Inv st)
    (hok : (match op with
            | .openNew h _ => handleFree st.files h
            | .queue h _ _ => handleFree st.files h
            | _ => true) = true) :
    Inv (runOp st op) := by
  cases op with
  | countOp r => exact count_inv hInv
  | openNew h now => exact openNewMessage_inv hInv hok
  | queue h now c => exact queueMessage_inv hInv hok
  | finish h => exact changeState_inv (by decide) hInv
  | abort h => exact changeState_inv (by decide) hInv
  | remove h => exact changeState_inv (by decide) hInv

theorem runOps_inv : ∀ (ops : List QOp) (st : QueueState),
    Inv st → okOps st ops = true → Inv (runOps st ops) := by
  intro ops
  induction ops with
  | nil => exact fun st hInv _ => hInv
  | cons op rest ih =>
      intro st hInv hok
      unfold okOps at hok
      rw [Bool.and_eq_true] at hok
      exact ih _ (runOp_inv hInv hok.1) hok.2

/-- C6: over every sequence of count, create, queue, finish, abort and
remove operations that respects the documented handle-freshness assumption
(Queue.py:45-55), starting from any well-formed directory with the count
cache uninitialised, the cached `n_entries` equals the number of `msg_*`
files whenever it is non-negative; and `count(recount=1)` returns exactly
the number of `msg_*` files on disk. -/
theorem count_consistency :
    ∀ (fs0 : List Entry) (ops : List QOp),
      (namesOf fs0).Nodup → HandleUnique fs0 → okOps ⟨fs0, -1⟩ ops = true →
      (0 ≤ (runOps ⟨fs0, -1⟩ ops).n_entries →
        (runOps ⟨fs0, -1⟩ ops).n_entries
          = (msgCount (runOps ⟨fs0, -1⟩ ops).files : Int)) ∧
      (count (runOps ⟨fs0, -1⟩ ops) true).1
        = (msgCount (runOps ⟨fs0, -1⟩ ops).files : Int) := by
  intro fs0 ops hnd hu hok
  have hInv0 : Inv ⟨fs0, -1⟩ :=
    ⟨hnd, hu, fun hge => by simp at hge⟩
  have hInv := runOps_inv ops ⟨fs0, -1⟩ hInv0 hok
  refine ⟨hInv.2.2, ?_⟩
  simp [count]

/-- Closed witness for C6 at a concrete input: the empty directory and the
sequence count, queue, remove. -/
theorem count_consistency_witness :
    ((namesOf ([] : List Entry)).Nodup ∧ HandleUnique ([] : List Entry) ∧
      okOps ⟨[], -1⟩ [.countOp false, .queue "a" 0 "x", .remove "a"] = true) ∧
    ((0 ≤ (runOps ⟨[], -1⟩ [.countOp false, .queue "a" 0 "x", .remove "a"]).n_entries →
        (runOps ⟨[], -1⟩ [.countOp false, .queue "a" 0 "x", .remove "a"]).n_entries
          = (msgCount (runOps ⟨[], -1⟩
              [.countOp false, .queue "a" 0 "x", .remove "a"]).files : Int)) ∧
      (count (runOps ⟨[], -1⟩ [.countOp false, .queue "a" 0 "x", .remove "a"]) true).1
        = (msgCount (runOps ⟨[], -1⟩
            [.countOp false, .queue "a" 0 "x", .remove "a"]).files : Int)) :=
  ⟨⟨List.nodup_nil, fun _ _ _ ht _ => absurd ht (List.not_mem_nil _), by decide⟩,
   count_consistency [] [.countOp false, .queue "a" 0 "x", .remove "a"]
     List.nodup_nil (fun _ _ _ ht _ => absurd ht (List.not_mem_nil _)) (by decide)⟩

theorem length_swapElems (l : List FName) (i j : Nat) :
    (swapElems l i j).length = l.length := by
  simp [swapElems]

theorem set_getD_self : ∀ (l : List FName) (i : Nat), i < l.length →
    l.set i (l.getD i (FName.other "")) = l := by
  intro l
  induction l with
  | nil => intro i h; simp at h
  | cons a t ih =>
    intro i h
    cases i with
    | zero => simp
    | succ k =>
        simp only [List.getD_cons_succ, List.set_cons_succ]
        rw [ih k (by simpa using h)]

theorem cons_swap_perm : ∀ (t : List FName) (k : Nat), k < t.length → ∀ a : FName,
    ((t.getD k (FName.other "")) :: (t.set k a)).Perm (a :: t) := by
  intro t
  induction t with
  | nil => intro k hk; simp at hk
  | cons b t' ih =>
    intro k hk a
    cases k with
    | zero =>
        simp only [List.getD_cons_zero, List.set_cons_zero]
        exact List.Perm.swap a b t'
    | succ m =>
        simp only [List.getD_cons_succ, List.set_cons_succ]
        have h1 := ih m (by simpa using hk) a
        exact (List.Perm.swap b (t'.getD m (FName.other "")) (t'.set m a)).trans
          ((h1.cons b).trans (List.Perm.swap a b t'))

theorem swapElems_perm : ∀ (l : List FName) (i j : Nat), i < l.length → j < l.length →
    (swapElems l i j).Perm l := by
  intro l
  induction l with
  | nil => intro i j hi _; simp at hi
  | cons a t ih =>
    intro i j hi hj
    cases i with
    | zero =>
      cases j with
      | zero =>
          simp [swapElems]
      | succ m =>
          have hm : m < t.length := by simpa using hj
          simp only [swapElems, List.getD_cons_succ, List.getD_cons_zero,
            List.set_cons_zero, List.set_cons_succ]
          exact cons_swap_perm t m hm a
    | succ k =>
      cases j with
      | zero =>
          have hk : k < t.length := by simpa using hi
          simp only [swapElems, List.getD_cons_zero, List.getD_cons_succ,
            List.set_cons_succ, List.set_cons_zero]
          exact cons_swap_perm t k hk a
      | succ m =>
          have hk : k < t.length := by simpa using hi
          have hm : m < t.length := by simpa using hj
          simp only [swapElems, List.getD_cons_succ, List.set_cons_succ]
          exact (ih k m hk hm).cons a

theorem shuffleIter_perm (rand : List Nat) (n : Nat) :
    ∀ (steps i : Nat) (l : List FName), l.length = n → i + steps + 1 ≤ n →
      (shuffleIter rand n i steps l).Perm l := by
  intro steps
  induction steps with
  | zero => intro i l _ _; exact List.Perm.refl l
  | succ s ih =>
      intro i l hlen hbound
      have hb : 0 < n - i - 1 := by omega
      have hswaplt : i + getInt (rand.getD i 0) (n - i - 1) < l.length := by
        have := Nat.mod_lt (rand.getD i 0) hb
        unfold getInt
        omega
      have hilt : i < l.length := by omega
      have hstep := ih (i + 1)
        (swapElems l i (i + getInt (rand.getD i 0) (n - i - 1)))
        (by rw [length_swapElems, hlen]) (by omega)
      exact hstep.trans (swapElems_perm l i _ hilt hswaplt)

theorem shuffleIter_perm_le (rand : List Nat) (ms : List FName) (steps : Nat)
    (h : steps + 1 ≤ ms.length ∨ steps = 0) :
    (shuffleIter rand ms.length 0 steps ms).Perm ms := by
  rcases h with h | h
  · exact shuffleIter_perm rand ms.length steps 0 ms rfl (by omega)
  · rw [h]
    exact List.Perm.refl ms

theorem mem_messages_isMsg {fs : List Entry} {x : FName}
    (hx : x ∈ (fs.filter (fun e => isMsg e.name)).map (·.name)) : isMsg x = true := by
  obtain ⟨e, he, hname⟩ := List.mem_map.mp hx
  have hmem := List.mem_filter.mp he
  rw [← hname]
  exact hmem.2

theorem handleOf_inj_on_msg : ∀ {x y : FName}, isMsg x = true → isMsg y = true →
    handleOf x = handleOf y → x = y := by
  intro x y hx hy hxy
  cases x with
  | tagged t h1 =>
    cases t with
    | msg =>
      cases y with
      | tagged t' h2 =>
        cases t' with
        | msg =>
            simp only [handleOf] at hxy
            rw [hxy]
        | inp => simp [isMsg] at hy
        | rmv => simp [isMsg] at hy
      | cleaning => simp [isMsg] at hy
      | other s => simp [isMsg] at hy
    | inp => simp [isMsg] at hx
    | rmv => simp [isMsg] at hx
  | cleaning => simp [isMsg] at hx
  | other s => simp [isMsg] at hx

theorem nodup_map_handleOf {ms : List FName} (hnd : ms.Nodup)
    (hmsg : ∀ x ∈ ms, isMsg x = true) : (ms.map handleOf).Nodup :=
  List.Nodup.map_on
    (fun x hx y hy hxy => handleOf_inj_on_msg (hmsg x hx) (hmsg y hy) hxy) hnd

theorem pick_core (rand : List Nat) (ms : List FName) (c : Int)
    (hc0 : 0 ≤ c) (hcn : c ≤ (ms.length : Int)) :
    ((pyTake (shuffleIter rand ms.length 0 (c - 1).toNat ms) c).length = c.toNat) ∧
    (pyTake (shuffleIter rand ms.length 0 (c - 1).toNat ms) c).Sublist
      (shuffleIter rand ms.length 0 (c - 1).toNat ms) ∧
    (shuffleIter rand ms.length 0 (c - 1).toNat ms).Perm ms := by
  have hperm : (shuffleIter rand ms.length 0 (c - 1).toNat ms).Perm ms := by
    apply shuffleIter_perm_le
    by_cases h0 : (c - 1).toNat = 0
    · right
      exact h0
    · left
      omega
  refine ⟨?_, ?_, hperm⟩
  · rw [pyTake, if_pos hc0, List.length_take, hperm.length_eq]
    omega
  · rw [pyTake, if_pos hc0]
    exact List.take_sublist _ _

theorem pick_core_all (rand : List Nat) (ms : List FName) :
    ((pyTake (shuffleIter rand ms.length 0 ((ms.length : Int) - 1).toNat ms)
        (ms.length : Int)).map handleOf).Perm (ms.map handleOf) := by
  have hperm : (shuffleIter rand ms.length 0
      ((ms.length : Int) - 1).toNat ms).Perm ms := by
    apply shuffleIter_perm_le
    by_cases h0 : ((ms.length : Int) - 1).toNat = 0
    · right
      exact h0
    · left
      omega
  have htake : pyTake (shuffleIter rand ms.length 0 ((ms.length : Int) - 1).toNat ms)
      (ms.length : Int)
      = shuffleIter rand ms.length 0 ((ms.length : Int) - 1).toNat ms := by
    rw [pyTake, if_pos (Int.natCast_nonneg _)]
    apply List.take_of_length_le
    rw [hperm.length_eq]
    omega
  rw [htake]
  exact hperm.map handleOf

/-- C7: pickRandom on a population of n `msg_*` entries returns, for a
requested count k at most n, exactly k pairwise distinct handles drawn
from the population; and for a requested count of at least n, as for an
omitted count, all n handles, each exactly once. -/
theorem pickRandom_sample_correct :
    ∀ (fs : List Entry) (rand : List Nat) (k : Nat),
      (namesOf fs).Nodup →
      ((k ≤ (getAllMessages fs).length →
          (pickRandom fs rand (some (k : Int))).length = k ∧
          (pickRandom fs rand (some (k : Int))).Nodup ∧
          ∀ h ∈ pickRandom fs rand (some (k : Int)), h ∈ getAllMessages fs) ∧
       ((getAllMessages fs).length ≤ k →
          (pickRandom fs rand (some (k : Int))).Perm (getAllMessages fs)) ∧
       (pickRandom fs rand none).Perm (getAllMessages fs)) := by
  intro fs rand k hnd
  have hndm : ((fs.filter (fun e => isMsg e.name)).map (·.name)).Nodup := by
    have hsub : ((fs.filter (fun e => isMsg e.name)).map (·.name)).Sublist (namesOf fs) := by
      unfold namesOf
      exact List.Sublist.map _ (List.filter_sublist fs)
    exact hsub.nodup hnd
  have hall : ∀ x ∈ (fs.filter (fun e => isMsg e.name)).map (·.name), isMsg x = true :=
    fun x hx => mem_messages_isMsg hx
  have hGAM : getAllMessages fs
      = ((fs.filter (fun e => isMsg e.name)).map (·.name)).map handleOf := by
    unfold getAllMessages
    rw [List.map_map]
    rfl
  refine ⟨?_, ?_, ?_⟩
  · intro hk
    have hklen : k ≤ ((fs.filter (fun e => isMsg e.name)).map (·.name)).length := by
      rw [hGAM, List.length_map] at hk
      exact hk
    obtain ⟨hlen1, hsub1, hperm1⟩ :=
      pick_core rand ((fs.filter (fun e => isMsg e.name)).map (·.name)) (k : Int)
        (Int.natCast_nonneg k) (by exact_mod_cast hklen)
    have hprEq : pickRandom fs rand (some (k : Int)) =
        (pyTake (shuffleIter rand
            ((fs.filter (fun e => isMsg e.name)).map (·.name)).length 0
            ((k : Int) - 1).toNat
            ((fs.filter (fun e => isMsg e.name)).map (·.name)))
          (k : Int)).map handleOf := by
      simp only [pickRandom]
      rw [min_eq_left (by exact_mod_cast hklen)]
    refine ⟨?_, ?_, ?_⟩
    · rw [hprEq, List.length_map, hlen1]
      omega
    · rw [hprEq]
      apply nodup_map_handleOf
      · exact hsub1.nodup (hperm1.symm.nodup hndm)
      · intro x hx
        exact hall x (hperm1.subset (hsub1.subset hx))
    · intro h hmem
      rw [hprEq] at hmem
      obtain ⟨x, hx, hxeq⟩ := List.mem_map.mp hmem
      rw [hGAM]
      exact hxeq ▸ List.mem_map_of_mem handleOf (hperm1.subset (hsub1.subset hx))
  · intro hk
    have hklen : ((fs.filter (fun e => isMsg e.name)).map (·.name)).length ≤ k := by
      rw [hGAM, List.length_map] at hk
      exact hk
    have hprEq : pickRandom fs rand (some (k : Int)) =
        (pyTake (shuffleIter rand
            ((fs.filter (fun e => isMsg e.name)).map (·.name)).length 0
            ((((fs.filter (fun e => isMsg e.name)).map (·.name)).length : Int) - 1).toNat
            ((fs.filter (fun e => isMsg e.name)).map (·.name)))
          (((fs.filter (fun e => isMsg e.name)).map (·.name)).length : Int)).map
          handleOf := by
      simp only [pickRandom]
      rw [min_eq_right (by exact_mod_cast hklen)]
    rw [hprEq, hGAM]
    exact pick_core_all rand _
  · have hprEq : pickRandom fs rand none =
        (pyTake (shuffleIter rand
            ((fs.filter (fun e => isMsg e.name)).map (·.name)).length 0
            ((((fs.filter (fun e => isMsg e.name)).map (·.name)).length : Int) - 1).toNat
            ((fs.filter (fun e => isMsg e.name)).map (·.name)))
          (((fs.filter (fun e => isMsg e.name)).map (·.name)).length : Int)).map
          handleOf := by
      simp only [pickRandom]
    rw [hprEq, hGAM]
    exact pick_core_all rand _

/-- Closed witness for C7 at a concrete input: two messages, count 1. -/
theorem pickRandom_sample_correct_witness :
    (namesOf [⟨FName.tagged .msg "a", 0, ""⟩, ⟨FName.tagged .msg "b", 0, ""⟩]).Nodup ∧
    ((1 ≤ (getAllMessages [⟨FName.tagged .msg "a", 0, ""⟩,
          ⟨FName.tagged .msg "b", 0, ""⟩]).length →
        (pickRandom [⟨FName.tagged .msg "a", 0, ""⟩, ⟨FName.tagged .msg "b", 0, ""⟩]
            [0] (some (1 : Int))).length = 1 ∧
        (pickRandom [⟨FName.tagged .msg "a", 0, ""⟩, ⟨FName.tagged .msg "b", 0, ""⟩]
            [0] (some (1 : Int))).Nodup ∧
        ∀ h ∈ pickRandom [⟨FName.tagged .msg "a", 0, ""⟩,
            ⟨FName.tagged .msg "b", 0, ""⟩] [0] (some (1 : Int)),
          h ∈ getAllMessages [⟨FName.tagged .msg "a", 0, ""⟩,
            ⟨FName.tagged .msg "b", 0, ""⟩]) ∧
     ((getAllMessages [⟨FName.tagged .msg "a", 0, ""⟩,
          ⟨FName.tagged .msg "b", 0, ""⟩]).length ≤ 1 →
        (pickRandom [⟨FName.tagged .msg "a", 0, ""⟩, ⟨FName.tagged .msg "b", 0, ""⟩]
            [0] (some (1 : Int))).Perm
          (getAllMessages [⟨FName.tagged .msg "a", 0, ""⟩,
            ⟨FName.tagged .msg "b", 0, ""⟩])) ∧
     (pickRandom [⟨FName.tagged .msg "a", 0, ""⟩, ⟨FName.tagged .msg "b", 0, ""⟩]
          [0] none).Perm
        (getAllMessages [⟨FName.tagged .msg "a", 0, ""⟩,
          ⟨FName.tagged .msg "b", 0, ""⟩])) :=
  ⟨by decide,
   pickRandom_sample_correct [⟨FName.tagged .msg "a", 0, ""⟩,
     ⟨FName.tagged .msg "b", 0, ""⟩] [0] 1 (by decide)⟩

/-- C1: refuted as stated.  A `.cleaning` sentinel with mtime 0, examined
at time 1000, is far older than the 60-second staleness timeout, yet
cleanQueue returns 1 (cleaning already in progress) and leaves the state
untouched: the staleness test at Queue.py:230-231 is dead because
`cleaning = 1` at line 232 runs unconditionally, so a stale sentinel never
lets a later call proceed, contradicting both the claim and the intent
stated in the comment at Queue.py:30-32. -/
theorem cleanQueue_stale_sentinel_blocks :
    CLEAN_TIMEOUT < 1000 - 0 ∧
    cleanQueue ⟨[⟨.cleaning, 0, "0"⟩], -1⟩ 1000 =
      (.ok (1, []), ⟨[⟨.cleaning, 0, "0"⟩], -1⟩) :=
  ⟨by decide, rfl⟩

/-- C2: refuted as stated.  On a population of two messages `msg_a`,
`msg_b` (in listing order), pickRandom with count 1 returns `["a"]` for
every possible stream of rng draws: `for i in range(count-1)` runs zero
iterations, so no randomness is consulted at all and the handle `b` can
never appear in the result, contradicting the equiprobable Fisher-Yates
selection the claim states and the comment at Queue.py:140-141 asserts. -/
theorem pickRandom_count_one_ignores_rng :
    ∀ rand : List Nat,
      pickRandom [⟨.tagged .msg "a", 0, ""⟩, ⟨.tagged .msg "b", 0, ""⟩] rand
          (some 1) = ["a"] :=
  fun _ => rfl

/-- C3: refuted as stated.  With n = 4 queued messages,
`nTransmit = min(4 - 5, int(4 * 0.3)) = -1` is never clamped to 0; inside
pickRandom the loop bound `range(-2)` is empty and the final slice
`messages[:-1]` keeps the first three of the four messages, so
pickMessages returns three handles (for every rng stream) where the claim
requires the empty sequence whenever n < 5. -/
theorem pickMessages_pool_of_four_sends_three :
    ∀ rand : List Nat,
      (pickMessages ⟨[⟨.tagged .msg "a", 0, ""⟩, ⟨.tagged .msg "b", 0, ""⟩,
                      ⟨.tagged .msg "c", 0, ""⟩, ⟨.tagged .msg "d", 0, ""⟩], -1⟩
          rand).1 = ["a", "b", "c"] :=
  fun _ => rfl

/-- C4: refuted as stated.  The first step of the round trip already
fails: DeliveryQueue.queueMessage on a fresh queue raises NameError on
the unbound name `contents` inside Queue.queueObject (Queue.py:110) right
after the exclusive create, so no handle is returned, nothing is
scheduled, and an orphaned `inp_` file is left behind; the claimed
send/fail/requeue behaviour is unreachable. -/
theorem deliveryQueue_queueMessage_raises :
    DeliveryQueue.queueMessage ⟨[], -1⟩ "a" 0 "addr" "hello" 0 0 =
      (.error (.nameError "contents"), ⟨[⟨.tagged .inp "a", 0, ""⟩], -1⟩) :=
  rfl

/-- C5: refuted as stated.  On a directory holding one stale input file
`inp_a` (mtime 0, examined at time 10000, far beyond the 600-second input
timeout), cleanQueue does rename it to `rmv_a`, but the batch handed to
the background eraser names the pre-rename path `inp_a` (Queue.py:252),
not the new `rmv_a` path; the erase worker therefore finds nothing to
unlink, and after the worker has also removed the sentinel the `rmv_a`
file is still on disk, contradicting the claim that every rmv file,
newly demoted ones included, is handed to the secure-erase worker. -/
theorem cleanQueue_demoted_file_escapes_erasure :
    cleanQueue ⟨[⟨.tagged .inp "a", 0, ""⟩], -1⟩ 10000 =
      (.ok (0, [FName.tagged .inp "a"]),
       ⟨[⟨.cleaning, 10000, "10000"⟩, ⟨.tagged .rmv "a", 0, ""⟩], -1⟩) ∧
    FName.tagged .rmv "a" ∉ [FName.tagged .inp "a"] ∧
    secureDelete_bg ⟨[⟨.cleaning, 10000, "10000"⟩, ⟨.tagged .rmv "a", 0, ""⟩], -1⟩
        [FName.tagged .inp "a"] =
      ⟨[⟨.tagged .rmv "a", 0, ""⟩], -1⟩ :=
  ⟨rfl, by decide, rfl⟩

/-- C8: the exclusive create of openNewMessage.  If no file named
`inp_<h>` exists, the create succeeds; a second create with the same
handle then fails with the EEXIST condition of `O_CREAT|O_EXCL` and
leaves the directory exactly as it was, clobbering nothing. -/
theorem openNewMessage_exclusive :
    ∀ (st : QueueState) (h : Handle) (now now' : Nat),
      hasName st.files (.tagged .inp h) = false →
      (openNewMessage st h now).1 = .ok h ∧
      openNewMessage (openNewMessage st h now).2 h now' =
        (.error (.osError "EEXIST"), (openNewMessage st h now).2) := by
  intro st h now now' hfree
  have h1 : openNewMessage st h now =
      (.ok h, { st with files := ⟨.tagged .inp h, now, ""⟩ :: st.files }) := by
    simp [openNewMessage, hfree]
  rw [h1]
  exact ⟨rfl, by simp [openNewMessage, hasName]⟩

/-- Closed witness for C8 at a concrete input. -/
theorem openNewMessage_exclusive_witness :
    hasName (QueueState.files ⟨[], -1⟩) (.tagged .inp "a") = false ∧
    ((openNewMessage ⟨[], -1⟩ "a" 0).1 = .ok "a" ∧
     openNewMessage (openNewMessage ⟨[], -1⟩ "a" 0).2 "a" 1 =
       (.error (.osError "EEXIST"), (openNewMessage ⟨[], -1⟩ "a" 0).2)) :=
  ⟨by decide, openNewMessage_exclusive ⟨[], -1⟩ "a" 0 1 (by decide)⟩

/-- C9: whenever the rename inside Queue.__changeState fails, whatever the
cause (missing source name or an injected environmental failure), the
exception propagates with the queue state, cached `n_entries` included,
exactly as it was before the call: the count bookkeeping of
Queue.py:261-266 runs only after the rename of line 259 has succeeded. -/
theorem changeState_error_keeps_state :
    ∀ (fsOK : Bool) (st : QueueState) (h : Handle) (s1 s2 : Tag) (e : PyErr),
      (changeState fsOK st h s1 s2).1 = .error e →
      (changeState fsOK st h s1 s2).2 = st := by
  intro fsOK st h s1 s2 e herr
  by_cases hc : (fsOK && hasName st.files (.tagged s1 h)) = true
  · simp [changeState, hc] at herr
  · simp [changeState, hc]

/-- Closed witness for C9 at a concrete input. -/
theorem changeState_error_keeps_state_witness :
    (changeState true ⟨[], -1⟩ "a" .msg .rmv).1 = .error (.osError "ENOENT") ∧
    (changeState true ⟨[], -1⟩ "a" .msg .rmv).2 = ⟨[], -1⟩ :=
  ⟨rfl, changeState_error_keeps_state true ⟨[], -1⟩ "a" .msg .rmv
    (.osError "ENOENT") rfl⟩

/-- C10: every call of Queue.queueObject with a fresh handle first creates
the exclusive `inp_<h>` file and then raises NameError on the unbound
name `contents` (Queue.py:110), so it never produces a `msg_*` entry and
never returns a handle, leaving the orphaned `inp_` file behind; and
DeliveryQueue.queueMessage, which delegates to it, fails identically on
every call. -/
theorem queueObject_always_raises :
    ∀ (st : QueueState) (h : Handle) (now : Nat) (addr msg : String)
      (retry retryAt : Int),
      hasName st.files (.tagged .inp h) = false →
      queueObject st h now =
        (.error (.nameError "contents"),
         { st with files := ⟨.tagged .inp h, now, ""⟩ :: st.files }) ∧
      msgCount (⟨FName.tagged .inp h, now, ""⟩ :: st.files) = msgCount st.files ∧
      DeliveryQueue.queueMessage st h now addr msg retry retryAt =
        (.error (.nameError "contents"),
         { st with files := ⟨.tagged .inp h, now, ""⟩ :: st.files }) := by
  intro st h now addr msg retry retryAt hfree
  refine ⟨?_, ?_, ?_⟩
  · simp [queueObject, openNewMessage, hfree]
  · simp [msgCount, List.countP_cons, isMsg]
  · simp [DeliveryQueue.queueMessage, queueObject, openNewMessage, hfree]

/-- Closed witness for C10 at a concrete input. -/
theorem queueObject_always_raises_witness :
    hasName (QueueState.files ⟨[], -1⟩) (.tagged .inp "a") = false ∧
    (queueObject ⟨[], -1⟩ "a" 0 =
       (.error (.nameError "contents"), ⟨[⟨.tagged .inp "a", 0, ""⟩], -1⟩) ∧
     msgCount [⟨FName.tagged .inp "a", 0, ""⟩] = msgCount ([] : List Entry) ∧
     DeliveryQueue.queueMessage ⟨[], -1⟩ "a" 0 "addr" "hello" 0 0 =
       (.error (.nameError "contents"), ⟨[⟨.tagged .inp "a", 0, ""⟩], -1⟩)) :=
  ⟨by decide, queueObject_always_raises ⟨[], -1⟩ "a" 0 "addr" "hello" 0 0 (by decide)⟩

end MixminionQueue
